import Mathlib

/-!
Verification of the MiniFlow computational-graph engine.

Shallow embedding of `src/miniflow.py` (node classes `Input`, `Linear`, `MSE`,
the dependency orderer `topological_sort`, and the execution orchestrator
`forward_and_backward`) together with the spec-modelled `Add` node whose class
definition is absent from the sources (only its call site in
`src/neural_network.py` remains).

Modelling conventions:
* Node objects are identified by natural numbers; a graph is given by its
  `outbound_nodes` adjacency (`outb : Nat → List Nat`), with `inbound_nodes`
  related to it by the construction discipline (building a node appends it to
  each inbound node's outbound list).
* numpy scalars and arrays are rationals, lists of rationals, and Mathlib
  matrices over `ℚ`.
* Python's unbounded `while` loops become fuel-indexed recursion returning
  `Option`; Python's unordered `set.pop()` becomes an explicit choice function
  `choose : Finset ℕ → ℕ`.
* Python dict lookups that can raise `KeyError` become `Option`-valued reads.
-/

namespace MiniFlow

open Matrix

/-! ### numpy list-matrix primitives used by the `MSE` node -/

/-- Model of `v.reshape(-1, 1)` applied to a 1-D array: a column matrix with one
singleton row per entry. -/
def colReshape (v : List ℚ) : List (List ℚ) := v.map fun x => [x]

/-- Elementwise subtraction of two equally-shaped list-matrices (numpy `-`). -/
def matSub (A B : List (List ℚ)) : List (List ℚ) :=
  List.zipWith (List.zipWith (fun u v => u - v)) A B

/-- Elementwise square (numpy `np.square`). -/
def matSquare (A : List (List ℚ)) : List (List ℚ) :=
  A.map (List.map fun x => x * x)

/-- Scalar times matrix, elementwise (numpy broadcasting of `c * A`). -/
def matScale (c : ℚ) (A : List (List ℚ)) : List (List ℚ) :=
  A.map (List.map fun x => c * x)

/-- Number of entries of a list-matrix. -/
def matCount (A : List (List ℚ)) : ℕ := (A.map List.length).sum

/-- Mean over all entries (numpy `np.mean`). -/
def matMean (A : List (List ℚ)) : ℚ := (A.map List.sum).sum / (matCount A : ℚ)

/-! ### `MSE` node (src/miniflow.py lines 129-158) -/

/-- `MSE.forward`: reshape both inbound values to columns, subtract, square,
take the mean. -/
def mseForward (y a : List ℚ) : ℚ :=
  matMean (matSquare (matSub (colReshape y) (colReshape a)))

/-- `MSE.backward`: `error = y_col - a_col`, `m = y.shape[0]`,
gradient w.r.t. `y` is `(2/m) * error`, w.r.t. `a` is `(-2/m) * error`.
No outbound consumer is consulted (the loss is the terminal node). -/
def mseBackward (y a : List ℚ) : List (List ℚ) × List (List ℚ) :=
  let error := matSub (colReshape y) (colReshape a)
  let m : ℚ := (y.length : ℚ)
  (matScale (2 / m) error, matScale (-2 / m) error)

/-! ### `Linear` node (src/miniflow.py lines 58-90) -/

/-- numpy `np.sum(g, axis=0)`: the column sums of a matrix. -/
def colSum {r c : ℕ} (g : Matrix (Fin r) (Fin c) ℚ) : Fin c → ℚ :=
  fun j => ∑ i, g i j

/-- `Linear.forward`: `np.dot(X, W) + b`, the bias broadcast across the rows. -/
def linearForward {r k c : ℕ} (X : Matrix (Fin r) (Fin k) ℚ)
    (W : Matrix (Fin k) (Fin c) ℚ) (b : Fin c → ℚ) : Matrix (Fin r) (Fin c) ℚ :=
  X * W + Matrix.of fun _ j => b j

/-- `Linear.backward`: gradients start at `np.zeros_like` and, for each outbound
consumer's gradient `g` for this node, accumulate `g·Wᵀ` into the `X` slot,
`Xᵀ·g` into the `W` slot and the column sums of `g` into the `b` slot. -/
def linearBackward {r k c : ℕ} (X : Matrix (Fin r) (Fin k) ℚ)
    (W : Matrix (Fin k) (Fin c) ℚ) (gs : List (Matrix (Fin r) (Fin c) ℚ)) :
    Matrix (Fin r) (Fin k) ℚ × Matrix (Fin k) (Fin c) ℚ × (Fin c → ℚ) :=
  gs.foldl (fun acc g => (acc.1 + g * Wᵀ, acc.2.1 + Xᵀ * g, acc.2.2 + colSum g))
    (0, 0, 0)

/-! ### `Input` node (src/miniflow.py lines 34-55) -/

/-- `Input.backward`: `self.gradients = {self: 0}` and then, for each outbound
consumer `c`, read `c.gradients[self]` (a `KeyError`, i.e. a missing entry,
aborts the pass) and add `gradient_cost * 1` into `gradients[self]`. -/
def inputBackward {V : Type} [NonAssocSemiring V] (self : ℕ) (outbound : List ℕ)
    (grads : ℕ → ℕ → Option V) : Option (ℕ → Option V) :=
  (outbound.foldlM (fun acc c => (grads c self).map fun gc => acc + gc * 1)
      (0 : V)).map
    fun s => fun p => if p = self then some s else none

/-! ### Forward execution over an ordering
(`forward_and_backward`, src/miniflow.py lines 202-211)

Every concrete node's `forward` computes its value purely from its inbound
nodes' current values, so a node kind is either `input` (whose no-argument
`forward()` leaves the stored value unchanged) or an operation
`f : List V → V` applied to the inbound values in order. -/

inductive NodeKind (V : Type) where
  | input : NodeKind V
  | op : (List V → V) → NodeKind V

structure ExecGraph (V : Type) where
  kind : ℕ → NodeKind V
  inb : ℕ → List ℕ

/-- One `n.forward()` call: an `Input` leaves the environment unchanged, an
operation node overwrites its own value with `f` of its inbound values. -/
def forwardStep {V : Type} (g : ExecGraph V) (env : ℕ → V) (n : ℕ) : ℕ → V :=
  match g.kind n with
  | NodeKind.input => env
  | NodeKind.op f => Function.update env n (f ((g.inb n).map env))

/-- The forward loop `for n in graph: n.forward()`. -/
def forwardPass {V : Type} (g : ExecGraph V) (env : ℕ → V) (order : List ℕ) :
    ℕ → V :=
  order.foldl (forwardStep g) env

/-- Checks that, scanning `order` left to right with already-processed prefix
`done`, every inbound node of each element either was already processed or does
not occur in the ordering at all (so each node is evaluated after all of its
inbound nodes that appear). -/
def topoOK {V : Type} (g : ExecGraph V) : List ℕ → List ℕ → Bool
  | _, [] => true
  | done, n :: rest =>
    ((g.inb n).all fun p =>
        decide (p ∈ done) || (!decide (p = n) && !decide (p ∈ rest))) &&
      topoOK g (done ++ [n]) rest

/-! ### The dependency orderer (src/miniflow.py lines 161-199)

Phase 1 (`while len(nodes) > 0`) discovers the reachable subgraph from the
feed keys, building `G[n] = {in-set, out-set}`; it has no visited check, so a
popped node re-enqueues all of its outbound neighbours every time.  `G` is
modelled as a key set `dom` plus two total maps `gin gout : ℕ → Finset ℕ`
(empty outside `dom`).  Phase 2 is the Kahn loop over the ready set `S`;
Python's `S.pop()` on an unordered set is an explicit `choose` function.
The assignment `n.value = feed_dict[n]` for `Input` nodes touches only node
values, not the ordering, and is covered by the execution layer above. -/

/-- The inner loop `for m in n.outbound_nodes` of the discovery phase:
register `m` in `G`, add the edge to `n`'s out-set and `m`'s in-set. -/
def discover (n : ℕ) :
    List ℕ → Finset ℕ → (ℕ → Finset ℕ) → (ℕ → Finset ℕ) →
    Finset ℕ × (ℕ → Finset ℕ) × (ℕ → Finset ℕ)
  | [], dom, gin, gout => (dom, gin, gout)
  | m :: ms, dom, gin, gout =>
    discover n ms (insert m dom)
      (Function.update gin m (insert n (gin m)))
      (Function.update gout n (insert m (gout n)))

/-- Phase 1: BFS-style discovery from the seed queue.  A node popped from the
queue is registered and every outbound neighbour is appended back onto the
queue (the source has no visited check).  Fuel bounds the number of pops; the
loop exits successfully only when the queue empties. -/
def bfs (outb : ℕ → List ℕ) :
    ℕ → List ℕ → Finset ℕ → (ℕ → Finset ℕ) → (ℕ → Finset ℕ) →
    Option (Finset ℕ × (ℕ → Finset ℕ) × (ℕ → Finset ℕ))
  | _, [], dom, gin, gout => some (dom, gin, gout)
  | 0, _ :: _, _, _, _ => none
  | fuel + 1, n :: rest, dom, gin, gout =>
    let s := discover n (outb n) (insert n dom) gin gout
    bfs outb fuel (rest ++ outb n) s.1 s.2.1 s.2.2

/-- The inner loop `for m in n.outbound_nodes` of the Kahn phase: remove the
edge from both endpoint sets and, if `m`'s in-set is now empty, add `m` to the
ready set. -/
def release (n : ℕ) :
    List ℕ → Finset ℕ → (ℕ → Finset ℕ) → (ℕ → Finset ℕ) →
    Finset ℕ × (ℕ → Finset ℕ) × (ℕ → Finset ℕ)
  | [], S, gin, gout => (S, gin, gout)
  | m :: ms, S, gin, gout =>
    let gout1 := Function.update gout n ((gout n).erase m)
    let gin1 := Function.update gin m ((gin m).erase n)
    let S1 := if gin1 m = ∅ then insert m S else S
    release n ms S1 gin1 gout1

/-- Phase 2: `while len(S) > 0`, pop a node (per `choose`), append it to the
output order, release its outbound edges. -/
def kahn (outb : ℕ → List ℕ) (choose : Finset ℕ → ℕ) :
    ℕ → List ℕ → Finset ℕ → (ℕ → Finset ℕ) → (ℕ → Finset ℕ) →
    Option (List ℕ)
  | 0, L, S, _, _ => if S = ∅ then some L else none
  | fuel + 1, L, S, gin, gout =>
    if S = ∅ then some L
    else
      let n := choose S
      let r := release n (outb n) (S.erase n) gin gout
      kahn outb choose fuel (L ++ [n]) r.1 r.2.1 r.2.2

/-- `topological_sort(feed_dict)`: discovery from the feed keys, then the Kahn
loop seeded with `set(input_nodes)`. -/
def topological_sort (outb : ℕ → List ℕ) (choose : Finset ℕ → ℕ) (fuel : ℕ)
    (feedKeys : List ℕ) : Option (List ℕ) :=
  match bfs outb fuel feedKeys ∅ (fun _ => ∅) (fun _ => ∅) with
  | none => none
  | some st => kahn outb choose fuel [] feedKeys.toFinset st.2.1 st.2.2

/-! ### Concrete pop policies and concrete graphs -/

/-- A valid pop policy: always pop the least ready node. -/
def chooseMin (s : Finset ℕ) : ℕ := if h : s.Nonempty then s.min' h else 0

/-- Another valid pop policy: always pop the greatest ready node. -/
def chooseMax (s : Finset ℕ) : ℕ := if h : s.Nonempty then s.max' h else 0

/-- Outbound adjacency of `Add(x, y, z)` over inputs `0, 1, 2` with the `Add`
node as `3` (src/neural_network.py lines 8-17). -/
def addOutb : ℕ → List ℕ := fun n => if n = 0 ∨ n = 1 ∨ n = 2 then [3] else []

/-- Inbound adjacency of the same graph. -/
def addInb : ℕ → List ℕ := fun n => if n = 3 then [0, 1, 2] else []

/-- Modelled from the spec: the `Add` node class is absent from `src/` (only
its call site in `src/neural_network.py` remains); per spec §4.5 its forward
value is the elementwise sum of all inbound values. -/
def addOp : List ℚ → ℚ := fun vs => vs.sum

/-- The executable graph for `Add(x, y, z)`. -/
def addExec : ExecGraph ℚ :=
  ⟨fun n => if n = 3 then NodeKind.op addOp else NodeKind.input, addInb⟩

/-- Node values after `topological_sort` assigned the feed
`{x: 4, y: 5, z: 10}`; nodes not yet computed hold the placeholder `0`
(Python's `None`). -/
def addEnv : ℕ → ℚ :=
  fun n => if n = 0 then 4 else if n = 1 then 5 else if n = 2 then 10 else 0

/-- A graph with a manually-introduced cycle reachable from the seed `Input`
node `0`: outbound edges `0 → 1`, `1 → 2`, `2 → 1`. -/
def cycOutb : ℕ → List ℕ :=
  fun n => if n = 0 then [1] else if n = 1 then [2] else if n = 2 then [1] else []

/-- Two seed `Input` nodes `0` and `1` both feeding node `2`: a graph on which
the ready set holds two nodes simultaneously. -/
def diamondOutb : ℕ → List ℕ := fun n => if n = 0 ∨ n = 1 then [2] else []

/-- The two-node chain `0 → 1` (an `Input` feeding one consumer). -/
def chainOutb : ℕ → List ℕ := fun n => if n = 0 then [1] else []

/-- Inbound adjacency of the chain. -/
def chainInb : ℕ → List ℕ := fun n => if n = 1 then [0] else []

/-- A concrete consumer-gradient table: consumer `c` holds gradient `c` for
every producer (used to instantiate `Input.backward` on a closed example). -/
def gradsW : ℕ → ℕ → Option ℚ := fun c _ => some (c : ℚ)

/-! ## Helper lemmas -/

theorem linearBackward_loop {r k c : ℕ} (X : Matrix (Fin r) (Fin k) ℚ)
    (W : Matrix (Fin k) (Fin c) ℚ) :
    ∀ (gs : List (Matrix (Fin r) (Fin c) ℚ))
      (acc : Matrix (Fin r) (Fin k) ℚ × Matrix (Fin k) (Fin c) ℚ × (Fin c → ℚ)),
      gs.foldl
          (fun (acc : Matrix (Fin r) (Fin k) ℚ × Matrix (Fin k) (Fin c) ℚ ×
              (Fin c → ℚ)) (g : Matrix (Fin r) (Fin c) ℚ) =>
            (acc.1 + g * Wᵀ, acc.2.1 + Xᵀ * g, acc.2.2 + colSum g))
          acc =
        (acc.1 + (gs.map fun g => g * Wᵀ).sum,
          acc.2.1 + (gs.map fun g => Xᵀ * g).sum,
          acc.2.2 + (gs.map colSum).sum) := by
  intro gs
  induction gs with
  | nil => intro acc; simp
  | cons g gs ih =>
    intro acc
    simp only [List.foldl_cons, ih, List.map_cons, List.sum_cons]
    exact Prod.ext (by simp [add_assoc]) (Prod.ext (by simp [add_assoc]) (by simp [add_assoc]))


theorem matSub_colReshape (y : List ℚ) : ∀ a : List ℚ,
    matSub (colReshape y) (colReshape a) =
      colReshape ((y.zip a).map fun p => p.1 - p.2) := by
  induction y with
  | nil => intro a; simp [matSub, colReshape]
  | cons u us ih =>
    intro a
    cases a with
    | nil => simp [matSub, colReshape]
    | cons v vs => simpa [matSub, colReshape] using ih vs

theorem matScale_colReshape (c : ℚ) (w : List ℚ) :
    matScale c (colReshape w) = colReshape (w.map fun x => c * x) := by
  simp [matScale, colReshape, List.map_map, Function.comp]

theorem matSquare_colReshape (w : List ℚ) :
    matSquare (colReshape w) = colReshape (w.map fun x => x * x) := by
  simp [matSquare, colReshape, List.map_map, Function.comp]

theorem rowSums_colReshape (w : List ℚ) :
    ((colReshape w).map List.sum).sum = w.sum := by
  induction w with
  | nil => simp [colReshape]
  | cons u us ih => simpa [colReshape] using ih

theorem matCount_colReshape (w : List ℚ) :
    matCount (colReshape w) = w.length := by
  induction w with
  | nil => simp [matCount, colReshape]
  | cons u us ih =>
    simp [matCount, colReshape] at ih ⊢
    omega


theorem inputBackward_fold {V : Type} [NonAssocSemiring V] (self : ℕ)
    (grads : ℕ → ℕ → Option V) (v : ℕ → V) :
    ∀ (outbound : List ℕ) (b : V), (∀ c ∈ outbound, grads c self = some (v c)) →
      List.foldlM (fun acc c => (grads c self).map fun gc => acc + gc * 1)
          b outbound =
        some (b + (outbound.map v).sum) := by
  intro outbound
  induction outbound with
  | nil => intro b _; simp
  | cons c cs ih =>
    intro b h
    have hc : grads c self = some (v c) := h c (List.mem_cons_self c cs)
    have hrest : ∀ x ∈ cs, grads x self = some (v x) :=
      fun x hx => h x (List.mem_cons_of_mem c hx)
    have hstep : List.foldlM (fun acc c => (grads c self).map fun gc => acc + gc * 1)
        b (c :: cs) =
        List.foldlM (fun acc c => (grads c self).map fun gc => acc + gc * 1)
          (b + v c * 1) cs := by
      simp [List.foldlM_cons, hc]
    rw [hstep, ih (b + v c * 1) hrest]
    simp [mul_one, add_assoc]

theorem forwardStep_input {V : Type} (g : ExecGraph V) (env : ℕ → V) (n : ℕ)
    (h : g.kind n = NodeKind.input) : forwardStep g env n = env := by
  unfold forwardStep
  rw [h]

theorem forwardStep_op {V : Type} (g : ExecGraph V) (env : ℕ → V) (n : ℕ)
    (f : List V → V) (h : g.kind n = NodeKind.op f) :
    forwardStep g env n = Function.update env n (f ((g.inb n).map env)) := by
  unfold forwardStep
  rw [h]

theorem forwardStep_other {V : Type} (g : ExecGraph V) (env : ℕ → V) (n x : ℕ)
    (hx : x ≠ n) : forwardStep g env n x = env x := by
  unfold forwardStep
  cases g.kind n with
  | input => rfl
  | op f => simp [Function.update_apply, hx]

theorem forwardPass_not_mem {V : Type} (g : ExecGraph V) :
    ∀ (order : List ℕ) (env : ℕ → V) (x : ℕ), x ∉ order →
      forwardPass g env order x = env x := by
  intro order
  induction order with
  | nil => intro env x _; rfl
  | cons n rest ih =>
    intro env x hx
    have hxn : x ≠ n := fun h => hx (h ▸ List.mem_cons_self n rest)
    have hxr : x ∉ rest := fun h => hx (List.mem_cons_of_mem n h)
    show forwardPass g (forwardStep g env n) rest x = env x
    rw [ih _ x hxr]
    exact forwardStep_other g env n x hxn

theorem forwardPass_idem {V : Type} (g : ExecGraph V) :
    ∀ (order done : List ℕ) (env : ℕ → V),
      topoOK g done order = true → (done ++ order).Nodup →
      forwardPass g (forwardPass g env order) order = forwardPass g env order := by
  intro order
  induction order with
  | nil => intro done env _ _; rfl
  | cons n rest ih =>
    intro done env htopo hnd
    have hsplit : ((g.inb n).all fun p =>
          decide (p ∈ done) || (!decide (p = n) && !decide (p ∈ rest))) = true ∧
        topoOK g (done ++ [n]) rest = true := by
      have := htopo
      rw [topoOK, Bool.and_eq_true] at this
      exact this
    have hnd' : ((done ++ [n]) ++ rest).Nodup := by
      simpa [List.append_assoc] using hnd
    have hnrest : n ∉ rest := by
      rcases List.nodup_append.mp hnd with ⟨_, hcons, _⟩
      exact (List.nodup_cons.mp hcons).1
    -- every inbound node of n is outside n :: rest
    have hinb : ∀ p ∈ g.inb n, p ≠ n ∧ p ∉ rest := by
      intro p hp
      have hall := List.all_eq_true.mp hsplit.1 p hp
      rcases Bool.or_eq_true _ _ |>.mp hall with hdone | hfree
      · have hpdone : p ∈ done := of_decide_eq_true hdone
        have hdisj : ∀ q ∈ done, q ∉ n :: rest := by
          rcases List.nodup_append.mp hnd with ⟨_, _, hdisj⟩
          intro q hq hq'
          exact hdisj hq hq'
        have := hdisj p hpdone
        exact ⟨fun h => this (h ▸ List.mem_cons_self n rest),
          fun h => this (List.mem_cons_of_mem n h)⟩
      · rw [Bool.and_eq_true] at hfree
        exact ⟨fun h => by simpa [h] using hfree.1,
          fun h => by simpa [h] using hfree.2⟩
    set env1 := forwardStep g env n with henv1
    have hpass : forwardPass g env (n :: rest) = forwardPass g env1 rest := rfl
    set E := forwardPass g env1 rest with hE
    -- values of nodes outside n :: rest are untouched
    have huntouched : ∀ p, p ≠ n → p ∉ rest → E p = env p := by
      intro p hpn hpr
      rw [hE, forwardPass_not_mem g rest env1 p hpr, henv1]
      exact forwardStep_other g env n p hpn
    -- one more forward step on n leaves E unchanged
    have hstep : forwardStep g E n = E := by
      cases hk : g.kind n with
      | input => exact forwardStep_input g E n hk
      | op f =>
        rw [forwardStep_op g E n f hk]
        have hmap : (g.inb n).map E = (g.inb n).map env := by
          apply List.map_congr_left
          intro p hp
          exact huntouched p (hinb p hp).1 (hinb p hp).2
        have hEn : E n = f ((g.inb n).map env) := by
          rw [hE, forwardPass_not_mem g rest env1 n hnrest, henv1,
            forwardStep_op g env n f hk]
          simp
        rw [hmap, ← hEn]
        exact Function.update_eq_self n E
    show forwardPass g (forwardPass g env1 rest) (n :: rest) = E
    have : forwardPass g E (n :: rest) = forwardPass g (forwardStep g E n) rest := rfl
    rw [← hE, this, hstep, hE]
    exact ih (done ++ [n]) env1 hsplit.2 hnd'

theorem addExec_pass : ∀ (L : List ℕ) (env : ℕ → ℚ),
    env 0 = 4 → env 1 = 5 → env 2 = 10 →
    forwardPass addExec env L 3 = if 3 ∈ L then 19 else env 3 := by
  intro L
  induction L with
  | nil => intro env _ _ _; simp [forwardPass]
  | cons n rest ih =>
    intro env h0 h1 h2
    show forwardPass addExec (forwardStep addExec env n) rest 3 = _
    by_cases hn : n = 3
    · subst hn
      rw [forwardStep_op addExec env 3 addOp rfl]
      have hval : addOp ((addExec.inb 3).map env) = 19 := by
        show addOp ([0, 1, 2].map env) = 19
        norm_num [addOp, h0, h1, h2]
      rw [hval]
      have := ih (Function.update env 3 19)
        (by simp [Function.update_apply]; exact h0)
        (by simp [Function.update_apply]; exact h1)
        (by simp [Function.update_apply]; exact h2)
      rw [this]
      simp [Function.update_apply]
    · have hstep : forwardStep addExec env n = env :=
        forwardStep_input addExec env n (by simp [addExec, hn])
      rw [hstep, ih env h0 h1 h2]
      have h3n : ¬(3 = n) := fun h => hn h.symm
      simp [List.mem_cons, h3n]

/-! ## Claim theorems -/

/-- C3: after a forward and a backward pass over a valid ordering, a `Linear`
node's gradients equal the sum over all outbound consumers of: w.r.t. `X`,
(consumer gradient)·`Wᵀ`; w.r.t. `W`, `Xᵀ`·(consumer gradient); w.r.t. `b`,
the axis-0 (column) sum of the consumer gradient.  `gs` is the list of
`n.gradients[self]` entries read from the consumers. -/
theorem linear_backward_sums_consumers {r k c : ℕ} (X : Matrix (Fin r) (Fin k) ℚ)
    (W : Matrix (Fin k) (Fin c) ℚ) (gs : List (Matrix (Fin r) (Fin c) ℚ)) :
    (linearBackward X W gs).1 = (gs.map fun g => g * Wᵀ).sum ∧
    (linearBackward X W gs).2.1 = (gs.map fun g => Xᵀ * g).sum ∧
    (linearBackward X W gs).2.2 = (gs.map colSum).sum := by
  unfold linearBackward
  rw [linearBackward_loop X W gs (0, 0, 0)]
  refine ⟨?_, ?_, ?_⟩ <;> simp

/-- C7: `Linear.forward` stores exactly `X·W + b` (entrywise the dot product of
row `i` of `X` with column `j` of `W`, plus the broadcast bias `b j`); in
particular `X = [[-1,-2],[-1,-2]]`, `W = [[2,-3],[2,-3]]`, `b = [-3,-5]` yields
`[[-9,4],[-9,4]]`. -/
theorem linear_forward_exact :
    (∀ (r k c : ℕ) (X : Matrix (Fin r) (Fin k) ℚ) (W : Matrix (Fin k) (Fin c) ℚ)
        (b : Fin c → ℚ) (i : Fin r) (j : Fin c),
        linearForward X W b i j = (∑ t, X i t * W t j) + b j) ∧
      linearForward !![(-1 : ℚ), -2; -1, -2] !![(2 : ℚ), -3; 2, -3]
        ![(-3 : ℚ), -5] = !![(-9 : ℚ), 4; -9, 4] := by
  constructor
  · intro r k c X W b i j
    simp [linearForward, Matrix.mul_apply, Matrix.add_apply]
  · ext i j
    fin_cases i <;> fin_cases j <;>
      simp [linearForward, Matrix.mul_apply, Fin.sum_univ_two] <;> norm_num

/-- C8: `MSE.forward` stores the mean of the elementwise squared difference of
the column-reshaped inputs, with `m` the first-dimension size of `y`; in
particular `y = [1,2,3]`, `a = [4.5,5,10]` yields exactly `281/12`, which is
within `10⁻⁸` of the spec's `23.41666667`. -/
theorem mse_forward_mean_of_squares :
    (∀ y a : List ℚ, y.length = a.length →
        mseForward y a =
          (((y.zip a).map fun p => (p.1 - p.2) ^ 2).sum) / (y.length : ℚ)) ∧
      mseForward [1, 2, 3] [4.5, 5, 10] = 281 / 12 ∧
      |(281 : ℚ) / 12 - 23.41666667| < 1 / 100000000 := by
  refine ⟨?_, ?_, ?_⟩
  · intro y a h
    unfold mseForward matMean
    rw [matSub_colReshape, matSquare_colReshape, rowSums_colReshape,
      matCount_colReshape]
    simp [List.map_map, Function.comp_def, pow_two, List.length_zip, h]
  · norm_num [mseForward, matMean, matSquare, matSub, colReshape, matCount]
  · rw [abs_sub_lt_iff]
    constructor <;> norm_num

/-- C8 witness: the general formula applied at `y = [1,2]`, `a = [3,4]`. -/
theorem mse_forward_mean_of_squares_witness :
    mseForward [1, 2] [3, 4] =
      (((([1, 2] : List ℚ).zip [3, 4]).map fun p => (p.1 - p.2) ^ 2).sum) /
        ((([1, 2] : List ℚ).length : ℚ)) :=
  mse_forward_mean_of_squares.1 [1, 2] [3, 4] rfl

/-- C4: `MSE.backward` unconditionally (without consulting outbound consumers)
sets the gradient w.r.t. `y` to `(2/m)·(y - a)` and w.r.t. `a` to
`-(2/m)·(y - a)` as column vectors, where `m = y.shape[0]`. -/
theorem mse_backward_formula (y a : List ℚ) (h : y.length = a.length) :
    (mseBackward y a).1 =
        colReshape ((y.zip a).map fun p => 2 / (y.length : ℚ) * (p.1 - p.2)) ∧
      (mseBackward y a).2 =
        colReshape ((y.zip a).map fun p => -2 / (y.length : ℚ) * (p.1 - p.2)) := by
  constructor <;>
    simp [mseBackward, matSub_colReshape, matScale_colReshape, List.map_map,
      Function.comp_def]

/-- C4 witness: the formula applied at `y = [1,2,3]`, `a = [4.5,5,10]`. -/
theorem mse_backward_formula_witness :
    (mseBackward [1, 2, 3] [4.5, 5, 10]).1 =
        colReshape ((([1, 2, 3] : List ℚ).zip [4.5, 5, 10]).map fun p =>
          2 / ((([1, 2, 3] : List ℚ).length : ℕ) : ℚ) * (p.1 - p.2)) ∧
      (mseBackward [1, 2, 3] [4.5, 5, 10]).2 =
        colReshape ((([1, 2, 3] : List ℚ).zip [4.5, 5, 10]).map fun p =>
          -2 / ((([1, 2, 3] : List ℚ).length : ℕ) : ℚ) * (p.1 - p.2)) :=
  mse_backward_formula [1, 2, 3] [4.5, 5, 10] rfl

/-- C10: `Input.backward` produces a gradients mapping keyed by the `Input`
node itself — and by nothing else — whose sole entry is the sum over all
outbound consumers of that consumer's gradient entry for this `Input`. -/
theorem input_backward_keyed_by_self {V : Type} [NonAssocSemiring V] (self : ℕ)
    (outbound : List ℕ) (grads : ℕ → ℕ → Option V) (v : ℕ → V)
    (h : ∀ c ∈ outbound, grads c self = some (v c)) :
    inputBackward self outbound grads =
      some fun p => if p = self then some ((outbound.map v).sum) else none := by
  unfold inputBackward
  rw [inputBackward_fold self grads v outbound 0 h]
  simp

/-- C10 witness: an `Input` node `5` with consumers `1` and `2` holding
gradients `1` and `2` for it. -/
theorem input_backward_keyed_by_self_witness :
    inputBackward 5 [1, 2] gradsW =
      some fun p => if p = 5 then
        some ((([1, 2] : List ℕ).map fun c => (c : ℚ)).sum) else none :=
  input_backward_keyed_by_self 5 [1, 2] gradsW (fun c => (c : ℚ)) (fun c _ => rfl)

/-- C9: running the forward pass twice in a row without changing any `Input`
value leaves every node's value identical to after the first pass, for any
ordering in which each node follows all of its inbound nodes that appear. -/
theorem forward_pass_idempotent {V : Type} (g : ExecGraph V) (order : List ℕ)
    (env : ℕ → V) (h1 : topoOK g [] order = true) (h2 : order.Nodup) :
    forwardPass g (forwardPass g env order) order = forwardPass g env order :=
  forwardPass_idem g order [] env h1 (by simpa using h2)

/-- C9 witness: idempotence on the concrete `Add(x, y, z)` graph and its
topological ordering. -/
theorem forward_pass_idempotent_witness :
    forwardPass addExec (forwardPass addExec addEnv [0, 1, 2, 3]) [0, 1, 2, 3] =
      forwardPass addExec addEnv [0, 1, 2, 3] :=
  forward_pass_idempotent addExec [0, 1, 2, 3] addEnv (by decide) (by decide)

/-- C5: the `Add` node (spec-modelled: elementwise sum of inbound values) fed
`x = 4`, `y = 5`, `z = 10` forwards the value `19` under every ordering that
contains it, and the orderer does produce such an ordering. -/
theorem add_node_forward_sum :
    (∀ L : List ℕ, 3 ∈ L → forwardPass addExec addEnv L 3 = 19) ∧
      topological_sort addOutb chooseMin 10 [0, 1, 2] = some [0, 1, 2, 3] := by
  constructor
  · intro L hL
    rw [addExec_pass L addEnv rfl rfl rfl]
    simp [hL]
  · decide

/-- C5 witness: the value of the `Add` node after the forward pass over the
computed ordering. -/
theorem add_node_forward_sum_witness :
    forwardPass addExec addEnv [0, 1, 2, 3] 3 = 19 :=
  add_node_forward_sum.1 [0, 1, 2, 3] (by decide)

/-! ## Invariants of the dependency orderer -/

theorem discover_dom (n : ℕ) : ∀ (ms : List ℕ) (dom : Finset ℕ)
    (gin gout : ℕ → Finset ℕ) (x : ℕ),
    x ∈ (discover n ms dom gin gout).1 ↔ x ∈ dom ∨ x ∈ ms := by
  intro ms
  induction ms with
  | nil => intro dom gin gout x; simp [discover]
  | cons m ms ih =>
    intro dom gin gout x
    simp only [discover]
    rw [ih]
    simp only [Finset.mem_insert, List.mem_cons]
    tauto

theorem discover_gin (n : ℕ) : ∀ (ms : List ℕ) (dom : Finset ℕ)
    (gin gout : ℕ → Finset ℕ) (p m : ℕ),
    p ∈ (discover n ms dom gin gout).2.1 m ↔
      p ∈ gin m ∨ (p = n ∧ m ∈ ms) := by
  intro ms
  induction ms with
  | nil => intro dom gin gout p m; simp [discover]
  | cons m0 ms ih =>
    intro dom gin gout p m
    simp only [discover]
    rw [ih]
    by_cases h0 : m = m0
    · subst h0
      simp [Function.update_apply, Finset.mem_insert, List.mem_cons]
      all_goals tauto
    · simp [Function.update_apply, h0, List.mem_cons]
      all_goals tauto

theorem bfs_post (outb : ℕ → List ℕ) (seeds : List ℕ) :
    ∀ (fuel : ℕ) (q : List ℕ) (dom : Finset ℕ) (gin gout : ℕ → Finset ℕ)
      (dom1 : Finset ℕ) (gin1 gout1 : ℕ → Finset ℕ),
      bfs outb fuel q dom gin gout = some (dom1, gin1, gout1) →
      (∀ p m, p ∈ gin m → m ∈ outb p) →
      (∀ p, p ∈ dom → p ∈ q ∨ ∀ m, m ∈ outb p → m ∈ dom ∧ p ∈ gin m) →
      (∀ s, s ∈ seeds → s ∈ dom ∨ s ∈ q) →
      (∀ p m, p ∈ gin1 m → m ∈ outb p) ∧
      (∀ p, p ∈ dom1 → ∀ m, m ∈ outb p → m ∈ dom1 ∧ p ∈ gin1 m) ∧
      (∀ s, s ∈ seeds → s ∈ dom1) := by
  intro fuel
  induction fuel with
  | zero =>
    intro q dom gin gout dom1 gin1 gout1 hrun h1 h2 h3
    cases q with
    | nil =>
      simp only [bfs, Option.some.injEq, Prod.mk.injEq] at hrun
      obtain ⟨rfl, rfl, rfl⟩ := hrun
      refine ⟨h1, ?_, ?_⟩
      · intro p hp m hm
        rcases h2 p hp with hq | hgood
        · exact absurd hq (List.not_mem_nil p)
        · exact hgood m hm
      · intro s hs
        rcases h3 s hs with hd | hq
        · exact hd
        · exact absurd hq (List.not_mem_nil s)
    | cons n rest => simp [bfs] at hrun
  | succ fuel ih =>
    intro q dom gin gout dom1 gin1 gout1 hrun h1 h2 h3
    cases q with
    | nil =>
      simp only [bfs, Option.some.injEq, Prod.mk.injEq] at hrun
      obtain ⟨rfl, rfl, rfl⟩ := hrun
      refine ⟨h1, ?_, ?_⟩
      · intro p hp m hm
        rcases h2 p hp with hq | hgood
        · exact absurd hq (List.not_mem_nil p)
        · exact hgood m hm
      · intro s hs
        rcases h3 s hs with hd | hq
        · exact hd
        · exact absurd hq (List.not_mem_nil s)
    | cons n rest =>
      simp only [bfs] at hrun
      refine ih (rest ++ outb n) _ _ _ dom1 gin1 gout1 hrun ?_ ?_ ?_
      · -- soundness of the enlarged in-sets
        intro p m hpm
        rw [discover_gin] at hpm
        rcases hpm with hold | ⟨rfl, hm⟩
        · exact h1 p m hold
        · exact hm
      · -- processed-or-queued
        intro p hp
        rw [discover_dom] at hp
        rcases hp with hins | hout
        · rw [Finset.mem_insert] at hins
          rcases hins with rfl | hdom
          · right
            intro m hm
            constructor
            · rw [discover_dom]
              exact Or.inr hm
            · rw [discover_gin]
              exact Or.inr ⟨rfl, hm⟩
          · rcases h2 p hdom with hq | hgood
            · rcases List.mem_cons.mp hq with rfl | hrest
              · right
                intro m hm
                refine ⟨by rw [discover_dom]; exact Or.inr hm, ?_⟩
                rw [discover_gin]
                exact Or.inr ⟨rfl, hm⟩
              · left
                exact List.mem_append_left _ hrest
            · right
              intro m hm
              refine ⟨?_, ?_⟩
              · rw [discover_dom]
                exact Or.inl (Finset.mem_insert_of_mem (hgood m hm).1)
              · rw [discover_gin]
                exact Or.inl (hgood m hm).2
        · left
          exact List.mem_append_right _ hout
      · -- seeds tracked
        intro s hs
        rcases h3 s hs with hd | hq
        · left
          rw [discover_dom]
          exact Or.inl (Finset.mem_insert_of_mem hd)
        · rcases List.mem_cons.mp hq with rfl | hrest
          · left
            rw [discover_dom]
            exact Or.inl (Finset.mem_insert_self s dom)
          · right
            exact List.mem_append_left _ hrest

theorem release_gin (n : ℕ) : ∀ (ms : List ℕ) (S : Finset ℕ)
    (gin gout : ℕ → Finset ℕ) (m : ℕ),
    (release n ms S gin gout).2.1 m =
      if m ∈ ms then (gin m).erase n else gin m := by
  intro ms
  induction ms with
  | nil => intro S gin gout m; simp [release]
  | cons m0 ms ih =>
    intro S gin gout m
    simp only [release]
    rw [ih]
    by_cases h0 : m = m0
    · subst h0
      by_cases hm : m ∈ ms <;>
        simp [Function.update_apply, hm, Finset.erase_idem, List.mem_cons]
    · by_cases hm : m ∈ ms <;>
        simp [Function.update_apply, h0, hm, List.mem_cons]

theorem release_S (n : ℕ) : ∀ (ms : List ℕ) (S : Finset ℕ)
    (gin gout : ℕ → Finset ℕ) (x : ℕ),
    x ∈ (release n ms S gin gout).1 ↔
      x ∈ S ∨ (x ∈ ms ∧ (gin x).erase n = ∅) := by
  intro ms
  induction ms with
  | nil => intro S gin gout x; simp [release]
  | cons m0 ms ih =>
    intro S gin gout x
    simp only [release]
    rw [ih]
    by_cases hx0 : x = m0
    · subst hx0
      by_cases hcond : (gin x).erase n = ∅ <;>
        simp [Function.update_apply, hcond, Finset.erase_idem,
          Finset.mem_insert, List.mem_cons] <;>
        all_goals tauto
    · by_cases hcond : (gin m0).erase n = ∅ <;>
        simp [Function.update_apply, hx0, hcond, Finset.mem_insert,
          List.mem_cons] <;>
        all_goals tauto

theorem kahn_post (outb : ℕ → List ℕ) (choose : Finset ℕ → ℕ)
    (dom1 : Finset ℕ)
    (hchoose : ∀ s : Finset ℕ, s.Nonempty → choose s ∈ s)
    (hclosed : ∀ p, p ∈ dom1 → ∀ m, m ∈ outb p → m ∈ dom1) :
    ∀ (fuel : ℕ) (L : List ℕ) (S : Finset ℕ) (gin gout : ℕ → Finset ℕ)
      (Lf : List ℕ),
      kahn outb choose fuel L S gin gout = some Lf →
      (∀ p m, p ∈ gin m → m ∈ outb p) →
      (∀ p, p ∈ dom1 → ∀ m, m ∈ outb p → p ∈ gin m ∨ p ∈ L) →
      (∀ x, x ∈ S → x ∈ dom1 ∧ gin x = ∅ ∧ x ∉ L) →
      (∀ x, x ∈ L → x ∈ dom1 ∧ gin x = ∅) →
      L.Nodup →
      (∀ p m, p ∈ dom1 → m ∈ outb p → m ∈ L →
        p ∈ L ∧ L.indexOf p < L.indexOf m) →
      ((∀ p m, p ∈ dom1 → m ∈ outb p → m ∈ Lf →
          p ∈ Lf ∧ Lf.indexOf p < Lf.indexOf m) ∧
        ∀ x, x ∈ Lf → x ∈ dom1) := by
  intro fuel
  induction fuel with
  | zero =>
    intro L S gin gout Lf hrun h1 h2 h3 h4 h5 h6
    by_cases hS : S = ∅
    · simp only [kahn, if_pos hS, Option.some.injEq] at hrun
      subst hrun
      exact ⟨h6, fun x hx => (h4 x hx).1⟩
    · simp only [kahn, if_neg hS] at hrun
      exact Option.noConfusion hrun
  | succ fuel ih =>
    intro L S gin gout Lf hrun h1 h2 h3 h4 h5 h6
    by_cases hS : S = ∅
    · simp only [kahn, if_pos hS, Option.some.injEq] at hrun
      subst hrun
      exact ⟨h6, fun x hx => (h4 x hx).1⟩
    · simp only [kahn, if_neg hS] at hrun
      set n := choose S with hn_def
      have hn : n ∈ S := hchoose S (Finset.nonempty_iff_ne_empty.mpr hS)
      obtain ⟨hndom, hgn, hnL⟩ := h3 n hn
      have hgin' : ∀ m, (release n (outb n) (S.erase n) gin gout).2.1 m =
          if m ∈ outb n then (gin m).erase n else gin m :=
        fun m => release_gin n (outb n) (S.erase n) gin gout m
      have hS' : ∀ x, x ∈ (release n (outb n) (S.erase n) gin gout).1 ↔
          x ∈ S.erase n ∨ (x ∈ outb n ∧ (gin x).erase n = ∅) :=
        fun x => release_S n (outb n) (S.erase n) gin gout x
      refine ih (L ++ [n]) _ _ _ Lf hrun ?_ ?_ ?_ ?_ ?_ ?_
      · -- edge-soundness survives erasure
        intro p m hpm
        rw [hgin' m] at hpm
        by_cases ho : m ∈ outb n
        · rw [if_pos ho] at hpm
          exact h1 p m (Finset.mem_of_mem_erase hpm)
        · rw [if_neg ho] at hpm
          exact h1 p m hpm
      · -- every discovered edge is still pending or its source is output
        intro p hp m hm
        rcases h2 p hp m hm with hpg | hpL
        · by_cases hpn : p = n
          · rw [hpn]
            exact Or.inr (List.mem_append_right L (List.mem_cons_self n []))
          · left
            rw [hgin' m]
            by_cases ho : m ∈ outb n
            · rw [if_pos ho]
              exact Finset.mem_erase.mpr ⟨hpn, hpg⟩
            · rw [if_neg ho]
              exact hpg
        · exact Or.inr (List.mem_append_left [n] hpL)
      · -- ready nodes are discovered, have empty in-set and are not output yet
        intro x hx
        rw [hS' x] at hx
        rcases hx with hxe | ⟨hxout, hxemp⟩
        · obtain ⟨hxn, hxS⟩ := Finset.mem_erase.mp hxe
          obtain ⟨hxdom, hxg, hxL⟩ := h3 x hxS
          refine ⟨hxdom, ?_, ?_⟩
          · rw [hgin' x]
            split_ifs with ho
            · rw [hxg]
              exact Finset.erase_empty n
            · exact hxg
          · intro hmem
            rcases List.mem_append.mp hmem with hL | hone
            · exact hxL hL
            · exact hxn (List.mem_singleton.mp hone)
        · have hxdom : x ∈ dom1 := hclosed n hndom x hxout
          refine ⟨hxdom, ?_, ?_⟩
          · rw [hgin' x, if_pos hxout]
            exact hxemp
          · intro hmem
            rcases List.mem_append.mp hmem with hL | hone
            · have hgx : gin x = ∅ := (h4 x hL).2
              rcases h2 n hndom x hxout with hng | hnL2
              · rw [hgx] at hng
                exact absurd hng (Finset.not_mem_empty n)
              · exact hnL hnL2
            · have hxn : x = n := List.mem_singleton.mp hone
              rw [hxn] at hxout
              rcases h2 n hndom n hxout with hng | hnL2
              · rw [hgn] at hng
                exact absurd hng (Finset.not_mem_empty n)
              · exact hnL hnL2
      · -- output nodes are discovered with empty in-set
        intro x hx
        rcases List.mem_append.mp hx with hL | hone
        · obtain ⟨hxdom, hxg⟩ := h4 x hL
          refine ⟨hxdom, ?_⟩
          rw [hgin' x]
          split_ifs with ho
          · rw [hxg]
            exact Finset.erase_empty n
          · exact hxg
        · have hxn : x = n := List.mem_singleton.mp hone
          rw [hxn]
          refine ⟨hndom, ?_⟩
          rw [hgin' n]
          split_ifs with ho
          · rw [hgn]
            exact Finset.erase_empty n
          · exact hgn
      · -- output list stays duplicate-free
        rw [List.nodup_append]
        refine ⟨h5, List.nodup_singleton n, ?_⟩
        intro a ha hb
        rw [List.mem_singleton] at hb
        subst hb
        exact hnL ha
      · -- the extended output respects all discovered edges
        intro p m hpdom hm hmem
        rcases List.mem_append.mp hmem with hmL | hone
        · obtain ⟨hpL, hidx⟩ := h6 p m hpdom hm hmL
          refine ⟨List.mem_append_left [n] hpL, ?_⟩
          rw [List.indexOf_append_of_mem hpL, List.indexOf_append_of_mem hmL]
          exact hidx
        · have hmn : m = n := List.mem_singleton.mp hone
          rw [hmn] at hm ⊢
          have hpL : p ∈ L := by
            rcases h2 p hpdom n hm with hpg | hpL
            · rw [hgn] at hpg
              exact absurd hpg (Finset.not_mem_empty p)
            · exact hpL
          refine ⟨List.mem_append_left [n] hpL, ?_⟩
          rw [List.indexOf_append_of_mem hpL,
            List.indexOf_append_of_not_mem hnL, List.indexOf_cons_self,
            Nat.add_zero]
          exact List.indexOf_lt_length.mpr hpL

theorem cyc_bfs_none : ∀ (fuel : ℕ) (dom : Finset ℕ) (gin gout : ℕ → Finset ℕ),
    bfs cycOutb fuel [1] dom gin gout = none ∧
      bfs cycOutb fuel [2] dom gin gout = none := by
  intro fuel
  induction fuel with
  | zero => intro dom gin gout; exact ⟨rfl, rfl⟩
  | succ fuel ih =>
    intro dom gin gout
    constructor
    · have e : bfs cycOutb (fuel + 1) [1] dom gin gout =
          bfs cycOutb fuel [2]
            (discover 1 [2] (insert 1 dom) gin gout).1
            (discover 1 [2] (insert 1 dom) gin gout).2.1
            (discover 1 [2] (insert 1 dom) gin gout).2.2 := rfl
      rw [e]
      exact (ih _ _ _).2
    · have e : bfs cycOutb (fuel + 1) [2] dom gin gout =
          bfs cycOutb fuel [1]
            (discover 2 [1] (insert 2 dom) gin gout).1
            (discover 2 [1] (insert 2 dom) gin gout).2.1
            (discover 2 [1] (insert 2 dom) gin gout).2.2 := rfl
      rw [e]
      exact (ih _ _ _).1

/-- C1: on every graph of constructed nodes (inbound and outbound adjacency
mutually consistent) whose feed keys are `Input` nodes (no inbound edges), any
node sequence that `topological_sort` returns places every node after all of
its inbound nodes that appear in the sequence. -/
theorem topological_sort_respects_inbound
    (outb inb : ℕ → List ℕ) (choose : Finset ℕ → ℕ)
    (hchoose : ∀ s : Finset ℕ, s.Nonempty → choose s ∈ s)
    (hcon : ∀ p m, p ∈ inb m ↔ m ∈ outb p)
    (seeds : List ℕ) (hseeds : ∀ s ∈ seeds, inb s = [])
    (fuel : ℕ) (L : List ℕ)
    (hrun : topological_sort outb choose fuel seeds = some L) :
    ∀ m ∈ L, ∀ p ∈ inb m, p ∈ L → L.indexOf p < L.indexOf m := by
  rcases hb : bfs outb fuel seeds ∅ (fun _ => ∅) (fun _ => ∅) with _ | st
  · rw [topological_sort, hb] at hrun
    exact Option.noConfusion hrun
  · obtain ⟨dom1, gin1, gout1⟩ := st
    rw [topological_sort, hb] at hrun
    obtain ⟨hFB, hFA, hFC⟩ := bfs_post outb seeds fuel seeds ∅ (fun _ => ∅)
      (fun _ => ∅) dom1 gin1 gout1 hb
      (fun p m hpm => absurd hpm (Finset.not_mem_empty p))
      (fun p hp => absurd hp (Finset.not_mem_empty p))
      (fun s hs => Or.inr hs)
    have hginseed : ∀ s ∈ seeds, gin1 s = ∅ := by
      intro s hs
      apply Finset.eq_empty_iff_forall_not_mem.mpr
      intro p hp
      have hso : s ∈ outb p := hFB p s hp
      have hsi : p ∈ inb s := (hcon p s).mpr hso
      rw [hseeds s hs] at hsi
      exact absurd hsi (List.not_mem_nil p)
    obtain ⟨hord, hdom⟩ := kahn_post outb choose dom1 hchoose
      (fun p hp m hm => (hFA p hp m hm).1) fuel [] seeds.toFinset gin1 gout1 L
      hrun hFB
      (fun p hp m hm => Or.inl (hFA p hp m hm).2)
      (fun x hx => ⟨hFC x (List.mem_toFinset.mp hx),
        hginseed x (List.mem_toFinset.mp hx), List.not_mem_nil x⟩)
      (fun x hx => absurd hx (List.not_mem_nil x))
      List.nodup_nil
      (fun p m _ _ hm => absurd hm (List.not_mem_nil m))
    intro m hmL p hp hpL
    exact (hord p m (hdom p hpL) ((hcon p m).mp hp) hmL).2

/-- C1 witness: the chain graph `Input 0 → node 1` with feed key `0`; the model
orders it as `[0, 1]` and the inbound node `0` indeed precedes `1`. -/
theorem topological_sort_respects_inbound_witness :
    ([0, 1] : List ℕ).indexOf 0 < ([0, 1] : List ℕ).indexOf 1 := by
  have hchoose : ∀ s : Finset ℕ, s.Nonempty → chooseMin s ∈ s := by
    intro s hs
    rw [chooseMin, dif_pos hs]
    exact s.min'_mem hs
  have hcon : ∀ p m, p ∈ chainInb m ↔ m ∈ chainOutb p := by
    intro p m
    by_cases hm : m = 1 <;> by_cases hp : p = 0 <;>
      simp [chainInb, chainOutb, hm, hp]
  have hseeds : ∀ s ∈ ([0] : List ℕ), chainInb s = [] := by
    intro s hs
    rw [List.mem_singleton] at hs
    rw [hs]
    rfl
  exact topological_sort_respects_inbound chainOutb chainInb chooseMin hchoose
    hcon [0] hseeds 10 [0, 1] (by decide) 1 (by decide) 0 (by decide) (by decide)

/-- C2: on the cyclic graph `0 → 1 → 2 → 1` (a cycle reachable from the seed
`Input` node `0`), `topological_sort` never returns, whatever the pop policy
and however much fuel the discovery loop is given: the discovery phase
re-enqueues the cycle's members forever instead of failing with a
`CycleDetected` signal (no such check exists in the code). -/
theorem cycle_discovery_never_terminates (fuel : ℕ) (choose : Finset ℕ → ℕ) :
    topological_sort cycOutb choose fuel [0] = none := by
  cases fuel with
  | zero => rfl
  | succ fuel =>
    have h : bfs cycOutb (fuel + 1) [0] ∅ (fun _ => ∅) (fun _ => ∅) = none := by
      have e : bfs cycOutb (fuel + 1) [0] ∅ (fun _ => ∅) (fun _ => ∅) =
          bfs cycOutb fuel [1]
            (discover 0 [1] (insert 0 ∅) (fun _ => ∅) (fun _ => ∅)).1
            (discover 0 [1] (insert 0 ∅) (fun _ => ∅) (fun _ => ∅)).2.1
            (discover 0 [1] (insert 0 ∅) (fun _ => ∅) (fun _ => ∅)).2.2 := rfl
      rw [e]
      exact (cyc_bfs_none fuel _ _ _).1
    rw [topological_sort, h]

/-- C6: the sequence returned by `topological_sort` depends on the order in
which the unordered ready set yields its elements: on the two-`Input` graph
`{0, 1} → 2`, popping least-first returns `[0, 1, 2]` while popping
greatest-first returns `[1, 0, 2]` — the selection follows the set's pop
order, not a fixed construction-order rule. -/
theorem topological_sort_pop_order_visible :
    topological_sort diamondOutb chooseMin 10 [0, 1] = some [0, 1, 2] ∧
      topological_sort diamondOutb chooseMax 10 [0, 1] = some [1, 0, 2] ∧
      ([0, 1, 2] : List ℕ) ≠ [1, 0, 2] := by
  refine ⟨by decide, by decide, by decide⟩

end MiniFlow
